import Mathlib

/-!
Shallow embedding of the genesys dice command parser.

Source files: src/lib.rs (parse_dice_as_value, parse_dice, parse_group,
parse_groups, parse_line), src/dice.rs (Dice), src/dice_roll.rs (DiceRoll).

Strings are modelled as lists of characters.  The nom combinators used by the
source (bytes::complete::tag_no_case, branch::alt, combinator::opt,
character::complete::digit1, sequence::tuple, multi::many1,
character::complete::char) are embedded as total functions on character lists.
Case folding is modelled at the ASCII level: every alias in the table is ASCII
and the nom char-by-char lowercase comparison coincides with ASCII folding on
the inputs the claims are about.

Results of the combinators live in PResult, with an explicit constructor for a
Rust panic: parse_dice calls .unwrap() on the value returned by str::parse,
which panics when the digit run does not fit in u32, and that outcome is not a
nom error.  Machine arithmetic on the u32 counters is modelled on Nat with an
explicit modulus 2^32 (release-profile wrapping of the += accumulation).

The aggregation step of parse_group stores the counters in a
HashMap<Dice, u32> and emits its entries with into_iter, whose order is
indeterminate (it depends on the per-instance RandomState of the map).  That
nondeterminism is modelled by an oracle parameter: every public function takes
an argument emit, where emit n is the permutation the n-th map built during
the call applies to its entries; real executions are exactly the instantiations
whose emissions are permutations of the accumulated entry list (ValidEmit).
-/

/-- The seven dice kinds, in the declaration order of src/dice.rs. -/
inductive Dice where
  | Boost
  | Ability
  | Proficiency
  | Setback
  | Difficulty
  | Challenge
  | Force
deriving DecidableEq

/-- The (count, kind) pair of src/dice_roll.rs. -/
structure DiceRoll where
  number_of_dice_to_roll : Nat
  die : Dice
deriving DecidableEq

/-- Mirror of DiceRoll::new (argument order die, count). -/
def DiceRoll.new (die : Dice) (number_of_dice_to_roll : Nat) : DiceRoll :=
  ⟨number_of_dice_to_roll, die⟩

/-- Modelled from the spec: src/error.rs, which declares ParserError, is not
among the sources; section 7 of the spec (and the uses in src/lib.rs) give a
ParseError variant carrying a message and a catch-all Unknown variant. -/
inductive ParserError where
  | parseError (msg : String)
  | unknown
deriving DecidableEq

/-- The three constructors of nom::Err.  The complete-input combinators used by
the source only ever build the first one; the payload records the input at the
point of failure (the source formats it into the error message). -/
inductive NomErr where
  | error (rem : List Char)
  | failure (rem : List Char)
  | incomplete
deriving DecidableEq

/-- Outcome of one embedded nom parser: success with the unconsumed remainder,
a nom error, or a Rust panic propagating out of the combinator stack. -/
inductive PResult (α : Type) where
  | ok (rem : List Char) (val : α)
  | err (e : NomErr)
  | panicked
deriving DecidableEq

/-- Outcome of parse_line: the groups, a ParserError, or a propagated panic. -/
inductive LineResult where
  | ok (groups : List (List DiceRoll))
  | err (e : ParserError)
  | panicked
deriving DecidableEq

/-- 2^32, the modulus of the u32 counters. -/
def u32Mod : Nat := 4294967296

/-- ASCII lowercase folding, as the code point of the folded character (the
alias table is all ASCII, and two characters compare case-insensitively equal
exactly when their folded code points are equal). -/
def lowerNat (c : Char) : Nat :=
  if 65 ≤ c.toNat ∧ c.toNat ≤ 90 then c.toNat + 32 else c.toNat

/-- The char-by-char case-insensitive comparison of tag_no_case: true when the
whole tag is matched by the front of the input. -/
def tagNoCaseMatch : List Char → List Char → Bool
  | [], _ => true
  | _ :: _, [] => false
  | t :: ts, c :: cs => (lowerNat c == lowerNat t) && tagNoCaseMatch ts cs

/-- One branch::alt over the tag_no_case alternatives of a single kind: the
first alias that matches wins, returning the unconsumed remainder. -/
def tryTags : List (List Char) → List Char → Option (List Char)
  | [], _ => none
  | t :: ts, i => if tagNoCaseMatch t i then some (i.drop t.length) else tryTags ts i

/-- The alias table of parse_dice_as_value, kinds and aliases in source order. -/
def aliasTable : List (Dice × List (List Char)) :=
  [ (.Ability, ["green".toList, "g".toList, "ability".toList, "abil".toList]),
    (.Challenge, ["challenge".toList, "cha".toList, "red".toList, "r".toList]),
    (.Proficiency, ["proficiency".toList, "prof".toList, "yellow".toList, "y".toList]),
    (.Difficulty, ["difficulty".toList, "purple".toList, "p".toList, "diff".toList, "dif".toList]),
    (.Setback, ["black".toList, "k".toList, "setback".toList, "s".toList]),
    (.Force, ["force".toList, "white".toList, "w".toList]),
    (.Boost, ["blue".toList, "boost".toList, "b".toList]) ]

/-- The outer branch::alt over the kinds: first kind whose alias alternation
succeeds wins (combinator::value replaces the matched text by the kind). -/
def findAlias : List (Dice × List (List Char)) → List Char → PResult Dice
  | [], i => .err (.error i)
  | (k, als) :: rest, i =>
    match tryTags als i with
    | some rem => .ok rem k
    | none => findAlias rest i

/-- Embedding of parse_dice_as_value from src/lib.rs. -/
def parse_dice_as_value (i : List Char) : PResult Dice :=
  findAlias aliasTable i

/-- character::complete::digit1: one or more ASCII decimal digits. -/
def digit1 (i : List Char) : PResult (List Char) :=
  let ds := i.takeWhile Char.isDigit
  if ds.isEmpty then .err (.error i) else .ok (i.drop ds.length) ds

/-- Numeric value of a digit run, as computed by str::parse::<u32> before its
range check. -/
def natOfDigits (ds : List Char) : Nat :=
  ds.foldl (fun n c => n * 10 + (c.toNat - 48)) 0

/-- Embedding of parse_dice from src/lib.rs: sequence::tuple of
combinator::opt(digit1) and parse_dice_as_value, then
number_of_dice.map_or(Ok(1), str::parse).unwrap().  The unwrap panics when the
digit run overflows u32; that happens only after the tuple succeeded, hence
only when an alias follows the digit run. -/
def parse_dice (i : List Char) : PResult DiceRoll :=
  let optDigits : Option (List Char) × List Char :=
    match digit1 i with
    | .ok rem ds => (some ds, rem)
    | _ => (none, i)
  match parse_dice_as_value optDigits.2 with
  | .ok rem2 d =>
    match optDigits.1 with
    | none => .ok rem2 (DiceRoll.new d 1)
    | some ds =>
      let n := natOfDigits ds
      if n < u32Mod then .ok rem2 (DiceRoll.new d n) else .panicked
  | .err e => .err e
  | .panicked => .panicked

/-- Loop of multi::many1 after its first mandatory success.  nom stops the
loop at the first Err::Error, propagates other outcomes, and raises an error
when an iteration consumes nothing; parse_dice only ever drops a prefix of its
input, so the nom consumed-nothing test (remainder equal to the input) is the
same as the length test used here, which also bounds the recursion. -/
def many1_go (fuel : Nat) (acc : List DiceRoll) (i : List Char) : PResult (List DiceRoll) :=
  match fuel with
  | 0 => .err (.error i)
  | fuel + 1 =>
    match parse_dice i with
    | .err (.error _) => .ok i acc
    | .err e => .err e
    | .panicked => .panicked
    | .ok rem r =>
      if rem.length < i.length then many1_go fuel (acc ++ [r]) rem
      else .err (.error i)

/-- multi::many1(parse_dice): the first application must succeed; the initial
fuel exceeds the remainder length, so the fuel never runs out. -/
def many1_dice (i : List Char) : PResult (List DiceRoll) :=
  match parse_dice i with
  | .err (.error _) => .err (.error i)
  | .err e => .err e
  | .panicked => .panicked
  | .ok rem r => many1_go (rem.length + 1) [r] rem

/-- One step of the HashMap accumulation of parse_group:
dice_counts.entry(die).or_insert(0) followed by += count, on an entry list in
insertion order, with u32 wrapping. -/
def insertAdd (m : List (Dice × Nat)) (k : Dice) (n : Nat) : List (Dice × Nat) :=
  match m with
  | [] => [(k, n % u32Mod)]
  | (k1, v) :: rest =>
    if k1 = k then (k1, (v + n) % u32Mod) :: rest
    else (k1, v) :: insertAdd rest k n

/-- The accumulated entry list of the dice_counts map of parse_group. -/
def rollsFold (rolls : List DiceRoll) : List (Dice × Nat) :=
  rolls.foldl (fun m r => insertAdd m r.die r.number_of_dice_to_roll) []

/-- The map closure of parse_group: an entry (key, value) back to a DiceRoll. -/
def rollOf (p : Dice × Nat) : DiceRoll :=
  ⟨p.2, p.1⟩

/-- Embedding of parse_group from src/lib.rs.  e is the emission order of the
into_iter of this particular HashMap instance (see the module docstring). -/
def parse_group (e : List (Dice × Nat) → List (Dice × Nat)) (i : List Char) :
    PResult (List DiceRoll) :=
  match many1_dice i with
  | .ok rem rolls => .ok rem ((e (rollsFold rolls)).map rollOf)
  | .err e1 => .err e1
  | .panicked => .panicked

/-- Embedding of parse_groups from src/lib.rs: a group, then optionally a
comma followed by a recursive group list; combinator::opt turns an Err::Error
of the inner tuple into None and restores the pre-comma remainder.  idx counts
the HashMap instances built so far, so each recursion level draws the next
emission order from the oracle.  The fuel only bounds the recursion: every
level consumes at least the comma, so the initial fuel of parse_groups is
never exhausted. -/
def parse_groups_fuel (emit : Nat → List (Dice × Nat) → List (Dice × Nat)) :
    Nat → Nat → List Char → PResult (List (List DiceRoll))
  | 0, _, i => .err (.error i)
  | fuel + 1, idx, i =>
    match parse_group (emit idx) i with
    | .ok rem g =>
      match rem with
      | c :: rest =>
        if c = ',' then
          match parse_groups_fuel emit fuel (idx + 1) rest with
          | .ok rem2 gs => .ok rem2 (g :: gs)
          | .err (.error _) => .ok rem [g]
          | .err e => .err e
          | .panicked => .panicked
        else .ok rem [g]
      | [] => .ok rem [g]
    | .err e => .err e
    | .panicked => .panicked

/-- parse_groups at its always-sufficient fuel. -/
def parse_groups (emit : Nat → List (Dice × Nat) → List (Dice × Nat))
    (i : List Char) : PResult (List (List DiceRoll)) :=
  parse_groups_fuel emit (i.length + 1) 0 i

/-- Unicode White_Space, the predicate of str::trim. -/
def isRustWhitespace (c : Char) : Bool :=
  (9 ≤ c.toNat && c.toNat ≤ 13) || c.toNat == 32 || c.toNat == 133 || c.toNat == 160 ||
  c.toNat == 5760 || (8192 ≤ c.toNat && c.toNat ≤ 8202) || c.toNat == 8232 ||
  c.toNat == 8233 || c.toNat == 8239 || c.toNat == 8287 || c.toNat == 12288

/-- str::trim: drop whitespace from both ends. -/
def rustTrim (l : List Char) : List Char :=
  ((l.dropWhile isRustWhitespace).reverse.dropWhile isRustWhitespace).reverse

/-- Rendering of a nom error value, standing in for format!("{0}", e) in
parse_line (the exact text is incidental; it is a deterministic function of
the error). -/
def nomErrMsg : NomErr → String
  | .error rem => "error at: " ++ String.mk rem
  | .failure rem => "failure at: " ++ String.mk rem
  | .incomplete => "incomplete"

/-- i.replace(" ", "") of parse_line: remove every ASCII space (only spaces). -/
def stripSpaces (l : List Char) : List Char :=
  l.filter (fun c => c != ' ')

/-- Embedding of parse_line from src/lib.rs, the public entry point. -/
def parse_line (emit : Nat → List (Dice × Nat) → List (Dice × Nat))
    (i : String) : LineResult :=
  let whitespaceless : List Char := stripSpaces i.toList
  match parse_groups emit whitespaceless with
  | .ok remaining dice_rolls =>
    if (rustTrim remaining).isEmpty then .ok dice_rolls
    else .err (.parseError
      ("Expected remaining input to be empty, found: " ++ String.mk remaining))
  | .err (.error e) => .err (.parseError (nomErrMsg (.error e)))
  | .err (.failure e) => .err (.parseError (nomErrMsg (.failure e)))
  | .err .incomplete => .err .unknown
  | .panicked => .panicked

/-- A valid emission oracle: every map instance emits a permutation of its
accumulated entries. -/
def ValidEmit (emit : Nat → List (Dice × Nat) → List (Dice × Nat)) : Prop :=
  ∀ n l, (emit n l).Perm l

/-- The in-order emission oracle (one possible HashMap iteration order). -/
def emitId : Nat → List (Dice × Nat) → List (Dice × Nat) :=
  fun _ l => l

/-- The reversed emission oracle (another possible iteration order). -/
def emitRev : Nat → List (Dice × Nat) → List (Dice × Nat) :=
  fun _ l => l.reverse

/-- Selector view of tryTags: the length of the first matching alias, if any. -/
def tryTagsLen : List (List Char) → List Char → Option Nat
  | [], _ => none
  | t :: ts, i => if tagNoCaseMatch t i then some t.length else tryTagsLen ts i

/-- Selector view of findAlias: matched length and kind of the winning rule. -/
def findAliasSel : List (Dice × List (List Char)) → List Char → Option (Nat × Dice)
  | [], _ => none
  | (k, als) :: rest, i =>
    match tryTagsLen als i with
    | some n => some (n, k)
    | none => findAliasSel rest i

/-- The flat ordered rule list of section 4.1 of the spec: all (alias, kind)
pairs, kinds in table order, aliases in listed order. -/
def specAliasRules : List (List Char × Dice) :=
  [ ("green".toList, .Ability), ("g".toList, .Ability),
    ("ability".toList, .Ability), ("abil".toList, .Ability),
    ("challenge".toList, .Challenge), ("cha".toList, .Challenge),
    ("red".toList, .Challenge), ("r".toList, .Challenge),
    ("proficiency".toList, .Proficiency), ("prof".toList, .Proficiency),
    ("yellow".toList, .Proficiency), ("y".toList, .Proficiency),
    ("difficulty".toList, .Difficulty), ("purple".toList, .Difficulty),
    ("p".toList, .Difficulty), ("diff".toList, .Difficulty),
    ("dif".toList, .Difficulty),
    ("black".toList, .Setback), ("k".toList, .Setback),
    ("setback".toList, .Setback), ("s".toList, .Setback),
    ("force".toList, .Force), ("white".toList, .Force), ("w".toList, .Force),
    ("blue".toList, .Boost), ("boost".toList, .Boost), ("b".toList, .Boost) ]

/-- The resolver as the spec words it: evaluate the flat rule list top to
bottom; the first alias that is a case-insensitive literal prefix of the input
wins, consuming exactly the alias length. -/
def specFirstMatch : List (List Char × Dice) → List Char → Option (Dice × List Char)
  | [], _ => none
  | (t, k) :: rest, i =>
    if tagNoCaseMatch t i then some (k, i.drop t.length) else specFirstMatch rest i

/-- Flattening of the nested alternation table. -/
def flattenTable : List (Dice × List (List Char)) → List (List Char × Dice)
  | [] => []
  | (k, als) :: rest => als.map (fun t => (t, k)) ++ flattenTable rest

/-- First-match lookup on an entry list. -/
def lookupA (k : Dice) : List (Dice × Nat) → Option Nat
  | [] => none
  | (k1, v) :: rest => if k1 = k then some v else lookupA k rest

/-- Per-kind wrapped running sum of the counts parsed for kind k. -/
def kindSum (rolls : List DiceRoll) (k : Dice) : Nat :=
  ((rolls.filter (fun r => r.die == k)).map (fun r => r.number_of_dice_to_roll)).foldl
    (fun a n => (a + n) % u32Mod) 0

/-- Group-list results equal up to reordering inside each group. -/
def GroupsRel : PResult (List (List DiceRoll)) → PResult (List (List DiceRoll)) → Prop
  | .ok rem1 gs1, .ok rem2 gs2 => rem1 = rem2 ∧ List.Forall₂ (fun a b => a.Perm b) gs1 gs2
  | .err e1, .err e2 => e1 = e2
  | .panicked, .panicked => True
  | _, _ => False

/-- Line results equal up to reordering inside each group. -/
def LineRel : LineResult → LineResult → Prop
  | .ok gs1, .ok gs2 => List.Forall₂ (fun a b => a.Perm b) gs1 gs2
  | .err e1, .err e2 => e1 = e2
  | .panicked, .panicked => True
  | _, _ => False

/-! Consumption bounds: every embedded parser only ever drops a prefix of its
input, so a successful remainder is never longer than the input. -/

theorem tryTags_rem_le :
    ∀ als i rem, tryTags als i = some rem → rem.length ≤ i.length := by
  intro als
  induction als with
  | nil => intro i rem h; simp [tryTags] at h
  | cons t ts ih =>
    intro i rem h
    simp only [tryTags] at h
    split at h
    · injection h with h
      subst h
      simp [List.length_drop]

    · exact ih i rem h

theorem findAlias_rem_le :
    ∀ T i rem k, findAlias T i = .ok rem k → rem.length ≤ i.length := by
  intro T
  induction T with
  | nil => intro i rem k h; simp [findAlias] at h
  | cons p rest ih =>
    intro i rem k h
    obtain ⟨kk, als⟩ := p
    simp only [findAlias] at h
    split at h
    · rename_i rem1 htt
      injection h with h1 h2
      subst h1
      exact tryTags_rem_le als i _ htt
    · exact ih i rem k h

theorem digit1_rem_le {i rem : List Char} {ds : List Char}
    (h : digit1 i = .ok rem ds) : rem.length ≤ i.length := by
  simp only [digit1] at h
  split at h
  · cases h
  · injection h with h1 h2
    subst h1
    simp [List.length_drop]

theorem parse_dice_rem_le {i rem : List Char} {r : DiceRoll}
    (h : parse_dice i = .ok rem r) : rem.length ≤ i.length := by
  simp only [parse_dice] at h
  cases hd : digit1 i with
  | ok rem1 ds =>
    rw [hd] at h
    simp only at h
    cases hv : parse_dice_as_value rem1 with
    | ok rem2 d =>
      rw [hv] at h
      simp only at h
      have h2 : rem2.length ≤ rem1.length := findAlias_rem_le aliasTable rem1 rem2 d hv
      have h1 : rem1.length ≤ i.length := digit1_rem_le hd
      split at h
      · injection h with ha hb
        subst ha
        omega
      · cases h

    | err e => rw [hv] at h; cases h
    | panicked => rw [hv] at h; cases h
  | err e =>
    rw [hd] at h
    simp only at h
    cases hv : parse_dice_as_value i with
    | ok rem2 d =>
      rw [hv] at h
      injection h with ha hb
      subst ha
      exact findAlias_rem_le aliasTable i rem2 d hv
    | err e2 => rw [hv] at h; cases h
    | panicked => rw [hv] at h; cases h
  | panicked =>
    rw [hd] at h
    simp only at h
    cases hv : parse_dice_as_value i with
    | ok rem2 d =>
      rw [hv] at h
      injection h with ha hb
      subst ha
      exact findAlias_rem_le aliasTable i rem2 d hv
    | err e2 => rw [hv] at h; cases h
    | panicked => rw [hv] at h; cases h

theorem many1_go_rem_le :
    ∀ fuel acc i rem out, many1_go fuel acc i = .ok rem out → rem.length ≤ i.length := by
  intro fuel
  induction fuel with
  | zero => intro acc i rem out h; simp [many1_go] at h
  | succ f ih =>
    intro acc i rem out h
    simp only [many1_go] at h
    cases hp : parse_dice i with
    | ok rem1 r =>
      rw [hp] at h
      simp only at h
      split at h
      · rename_i hlt
        have := ih (acc ++ [r]) rem1 rem out h
        omega
      · cases h
    | err e =>
      rw [hp] at h
      cases e with
      | error r0 => injection h with h1 h2; subst h1; exact Nat.le_refl _
      | failure r0 => cases h
      | incomplete => cases h
    | panicked => rw [hp] at h; cases h

theorem many1_dice_rem_le {i rem : List Char} {out : List DiceRoll}
    (h : many1_dice i = .ok rem out) : rem.length ≤ i.length := by
  simp only [many1_dice] at h
  cases hp : parse_dice i with
  | ok rem1 r =>
    rw [hp] at h
    have h1 : rem1.length ≤ i.length := parse_dice_rem_le hp
    have h2 := many1_go_rem_le (rem1.length + 1) [r] rem1 rem out h
    omega
  | err e =>
    rw [hp] at h
    cases e with
    | error r0 => cases h
    | failure r0 => cases h
    | incomplete => cases h
  | panicked => rw [hp] at h; cases h

theorem parse_group_rem_le {e : List (Dice × Nat) → List (Dice × Nat)}
    {i rem : List Char} {g : List DiceRoll}
    (h : parse_group e i = .ok rem g) : rem.length ≤ i.length := by
  simp only [parse_group] at h
  cases hm : many1_dice i with
  | ok rem1 rolls =>
    rw [hm] at h
    injection h with h1 h2
    subst h1
    exact many1_dice_rem_le hm
  | err e1 => rw [hm] at h; cases h
  | panicked => rw [hm] at h; cases h

/-! Fuel is irrelevant as soon as it exceeds the input length, and the group
index only shifts the emission oracle. -/

theorem parse_groups_fuel_congr :
    ∀ f1 f2 emit idx i, i.length < f1 → i.length < f2 →
      parse_groups_fuel emit f1 idx i = parse_groups_fuel emit f2 idx i := by
  intro f1
  induction f1 with
  | zero => intro f2 emit idx i h1 h2; omega
  | succ f ih =>
    intro f2 emit idx i h1 h2
    cases f2 with
    | zero => omega
    | succ f2 =>
      simp only [parse_groups_fuel]
      cases hg : parse_group (emit idx) i with
      | ok rem g =>
        have hle : rem.length ≤ i.length := parse_group_rem_le hg
        cases rem with
        | nil => rfl
        | cons c rest =>
          simp only [List.length_cons] at hle
          by_cases hc : c = ','
          · subst hc
            simp only [if_pos]
            rw [ih f2 emit (idx + 1) rest (by omega) (by omega)]
          · simp [hc]
      | err e => rfl
      | panicked => rfl

theorem parse_groups_fuel_shift :
    ∀ f emit idx i, parse_groups_fuel emit f idx i =
      parse_groups_fuel (fun n => emit (idx + n)) f 0 i := by
  intro f
  induction f with
  | zero => intro emit idx i; rfl
  | succ f ih =>
    intro emit idx i
    simp only [parse_groups_fuel, Nat.add_zero]
    cases hg : parse_group (emit idx) i with
    | ok rem g =>
      cases rem with
      | nil => rfl
      | cons c rest =>
        by_cases hc : c = ','
        · subst hc
          simp only [if_pos]
          rw [ih emit (idx + 1) rest, ih (fun n => emit (idx + n)) 1 rest]
          have hfun : (fun n => emit (idx + 1 + n)) = (fun n => emit (idx + (1 + n))) := by
            funext n
            rw [Nat.add_assoc]
          rw [hfun]
        · simp [hc]
    | err e => rfl
    | panicked => rfl

/-! Space stripping and trimming. -/

theorem stripSpaces_idem (l : List Char) :
    stripSpaces (stripSpaces l) = stripSpaces l := by
  simp [stripSpaces, List.filter_filter]

theorem rustTrim_nil {l : List Char} (h : rustTrim l = []) :
    ∀ c ∈ l, isRustWhitespace c = true := by
  intro c hc
  simp only [rustTrim] at h
  rw [List.reverse_eq_nil_iff] at h
  rw [List.dropWhile_eq_nil_iff] at h
  have hdrop : ∀ x ∈ l.dropWhile isRustWhitespace, isRustWhitespace x = true := by
    intro x hx
    exact h x (by simpa using hx)
  have hsplit := List.takeWhile_append_dropWhile (p := isRustWhitespace) (l := l)
  rw [← hsplit] at hc
  rcases List.mem_append.mp hc with h1 | h2
  · exact List.mem_takeWhile_imp h1
  · exact hdrop c h2

/-! Alias resolution: selector view, case-folding congruence, and the flat
first-match formulation of the spec. -/

theorem tryTags_eq_len :
    ∀ als i, tryTags als i = (tryTagsLen als i).map (fun n => i.drop n) := by
  intro als
  induction als with
  | nil => intro i; rfl
  | cons t ts ih =>
    intro i
    simp only [tryTags, tryTagsLen]
    by_cases h : tagNoCaseMatch t i = true
    · simp [h]
    · simp [h, ih i]

theorem findAlias_eq_sel :
    ∀ T i, findAlias T i =
      (match findAliasSel T i with
       | some (n, k) => .ok (i.drop n) k
       | none => .err (.error i)) := by
  intro T
  induction T with
  | nil => intro i; rfl
  | cons p rest ih =>
    intro i
    obtain ⟨k, als⟩ := p
    simp only [findAlias, findAliasSel, tryTags_eq_len]
    cases h : tryTagsLen als i with
    | some n => simp
    | none => simp [ih i]

theorem tagNoCaseMatch_congr :
    ∀ t b b1, b.map lowerNat = b1.map lowerNat →
      tagNoCaseMatch t b = tagNoCaseMatch t b1 := by
  intro t
  induction t with
  | nil => intro b b1 h; rfl
  | cons x ts ih =>
    intro b b1 h
    cases b with
    | nil =>
      cases b1 with
      | nil => rfl
      | cons c cs => simp at h
    | cons c cs =>
      cases b1 with
      | nil => simp at h
      | cons d ds =>
        simp only [List.map_cons, List.cons.injEq] at h
        obtain ⟨h1, h2⟩ := h
        simp only [tagNoCaseMatch, h1, ih cs ds h2]

theorem tryTagsLen_congr :
    ∀ als b b1, b.map lowerNat = b1.map lowerNat →
      tryTagsLen als b = tryTagsLen als b1 := by
  intro als
  induction als with
  | nil => intro b b1 h; rfl
  | cons t ts ih =>
    intro b b1 h
    simp only [tryTagsLen, tagNoCaseMatch_congr t b b1 h, ih b b1 h]

theorem findAliasSel_congr :
    ∀ T b b1, b.map lowerNat = b1.map lowerNat →
      findAliasSel T b = findAliasSel T b1 := by
  intro T
  induction T with
  | nil => intro b b1 h; rfl
  | cons p rest ih =>
    intro b b1 h
    obtain ⟨k, als⟩ := p
    simp only [findAliasSel, tryTagsLen_congr als b b1 h, ih b b1 h]

/-- Any casing of a string fully resolved by the alias alternation resolves to
the same kind, again consuming the whole input. -/
theorem casing_resolve {A b : List Char} {k : Dice}
    (hA : parse_dice_as_value A = .ok [] k)
    (hb : b.map lowerNat = A.map lowerNat) :
    parse_dice_as_value b = .ok [] k := by
  have hlen : b.length = A.length := by
    have h1 := congrArg List.length hb
    simpa using h1
  rw [parse_dice_as_value, findAlias_eq_sel] at hA ⊢
  rw [findAliasSel_congr aliasTable b A hb]
  cases hfs : findAliasSel aliasTable A with
  | none => rw [hfs] at hA; cases hA
  | some p =>
    obtain ⟨n, kk⟩ := p
    rw [hfs] at hA
    simp only at hA ⊢
    injection hA with h1 h2
    subst h2
    rw [List.drop_eq_nil_iff] at h1
    have hbn : b.drop n = [] := by
      rw [List.drop_eq_nil_iff]
      omega
    rw [hbn]

theorem specFirstMatch_append_alias :
    ∀ als k L i, specFirstMatch (als.map (fun t => (t, k)) ++ L) i =
      (match tryTags als i with
       | some rem => some (k, rem)
       | none => specFirstMatch L i) := by
  intro als
  induction als with
  | nil => intro k L i; rfl
  | cons t ts ih =>
    intro k L i
    simp only [List.map_cons, List.cons_append, specFirstMatch, tryTags]
    by_cases h : tagNoCaseMatch t i = true
    · simp [h]
    · simp [h, ih k L i]

theorem findAlias_eq_specFirstMatch :
    ∀ T i, findAlias T i =
      (match specFirstMatch (flattenTable T) i with
       | some (k, rem) => .ok rem k
       | none => .err (.error i)) := by
  intro T
  induction T with
  | nil => intro i; rfl
  | cons p rest ih =>
    intro i
    obtain ⟨k, als⟩ := p
    simp only [findAlias, flattenTable, specFirstMatch_append_alias]
    cases h : tryTags als i with
    | some rem => simp
    | none => simp [ih i]

theorem flattenTable_aliasTable : flattenTable aliasTable = specAliasRules := by
  decide

/-! The entry list of the dice_counts map: keys stay distinct, the list stays
nonempty, and each key holds the wrapped running sum of its matched counts. -/

theorem insertAdd_ne_nil (m : List (Dice × Nat)) (k : Dice) (n : Nat) :
    insertAdd m k n ≠ [] := by
  cases m with
  | nil => simp [insertAdd]
  | cons p rest =>
    obtain ⟨k1, v⟩ := p
    simp only [insertAdd]
    split <;> simp

theorem insertAdd_keys (m : List (Dice × Nat)) (k : Dice) (n : Nat) :
    (insertAdd m k n).map Prod.fst =
      (if k ∈ m.map Prod.fst then m.map Prod.fst else m.map Prod.fst ++ [k]) := by
  induction m with
  | nil => simp [insertAdd]
  | cons p rest ih =>
    obtain ⟨k1, v⟩ := p
    simp only [insertAdd]
    by_cases h : k1 = k
    · subst h
      simp
    · simp only [if_neg h, List.map_cons, ih]
      by_cases hm : k ∈ rest.map Prod.fst
      · simp [hm]
      · have hne : ¬k = k1 := fun hh => h hh.symm
        simp [hm, hne]

theorem insertAdd_keys_nodup {m : List (Dice × Nat)}
    (h : (m.map Prod.fst).Nodup) (k : Dice) (n : Nat) :
    ((insertAdd m k n).map Prod.fst).Nodup := by
  rw [insertAdd_keys]
  split
  · exact h
  · rename_i hk
    simp only [List.nodup_append, h, List.nodup_cons, List.not_mem_nil,
      not_false_eq_true, List.nodup_nil, and_self, true_and]
    intro a ha
    simp only [List.mem_singleton]
    intro hak
    exact hk (hak ▸ ha)

theorem foldl_insertAdd_keys_nodup :
    ∀ (rolls : List DiceRoll) (m : List (Dice × Nat)),
      (m.map Prod.fst).Nodup →
      (((rolls.foldl (fun m r => insertAdd m r.die r.number_of_dice_to_roll) m).map
        Prod.fst).Nodup) := by
  intro rolls
  induction rolls with
  | nil => intro m h; simpa using h
  | cons r rs ih =>
    intro m h
    simp only [List.foldl_cons]
    exact ih _ (insertAdd_keys_nodup h _ _)

theorem rollsFold_keys_nodup (rolls : List DiceRoll) :
    (((rollsFold rolls).map Prod.fst)).Nodup :=
  foldl_insertAdd_keys_nodup rolls [] (by simp)

theorem foldl_insertAdd_ne_nil :
    ∀ (rolls : List DiceRoll) (m : List (Dice × Nat)), m ≠ [] →
      rolls.foldl (fun m r => insertAdd m r.die r.number_of_dice_to_roll) m ≠ [] := by
  intro rolls
  induction rolls with
  | nil => intro m h; simpa using h
  | cons r rs ih =>
    intro m h
    simp only [List.foldl_cons]
    exact ih _ (insertAdd_ne_nil _ _ _)

theorem rollsFold_ne_nil {rolls : List DiceRoll} (h : rolls ≠ []) :
    rollsFold rolls ≠ [] := by
  cases rolls with
  | nil => exact absurd rfl h
  | cons r rs =>
    simp only [rollsFold, List.foldl_cons]
    exact foldl_insertAdd_ne_nil rs _ (insertAdd_ne_nil _ _ _)

theorem lookupA_insertAdd (m : List (Dice × Nat)) (k : Dice) (n : Nat) (k1 : Dice) :
    lookupA k1 (insertAdd m k n) =
      (if k1 = k then some (((lookupA k1 m).getD 0 + n) % u32Mod) else lookupA k1 m) := by
  induction m with
  | nil =>
    by_cases h : k1 = k
    · subst h
      simp [insertAdd, lookupA]
    · have hne : ¬k = k1 := fun hh => h hh.symm
      simp [insertAdd, lookupA, h, hne]
  | cons p rest ih =>
    obtain ⟨k2, v⟩ := p
    by_cases h2 : k2 = k
    · subst h2
      by_cases h1 : k2 = k1
      · subst h1
        simp [insertAdd, lookupA]
      · have hne : ¬k1 = k2 := fun hh => h1 hh.symm
        simp [insertAdd, lookupA, h1, hne]
    · by_cases h1 : k2 = k1
      · subst h1
        have hne : ¬k2 = k := h2
        simp [insertAdd, lookupA, hne]
      · simp [insertAdd, lookupA, h2, h1, ih]

theorem lookupA_foldl_insertAdd :
    ∀ (rolls : List DiceRoll) (m : List (Dice × Nat)) (k : Dice),
      lookupA k (rolls.foldl (fun m r => insertAdd m r.die r.number_of_dice_to_roll) m) =
      ((rolls.filter (fun r => r.die == k)).map (fun r => r.number_of_dice_to_roll)).foldl
        (fun o n => some ((o.getD 0 + n) % u32Mod)) (lookupA k m) := by
  intro rolls
  induction rolls with
  | nil => intro m k; rfl
  | cons r rs ih =>
    intro m k
    by_cases h : r.die = k
    · have hb : (r.die == k) = true := by simp [h]
      rw [List.foldl_cons, ih, lookupA_insertAdd, if_pos h.symm,
        List.filter_cons, if_pos hb, List.map_cons, List.foldl_cons]
    · have hcond : ¬((r.die == k) = true) := by simp [h]
      rw [List.foldl_cons, ih, lookupA_insertAdd, if_neg (fun hh => h hh.symm),
        List.filter_cons, if_neg hcond]

theorem optFold_some :
    ∀ (L : List Nat) (v : Nat),
      L.foldl (fun o n => some ((o.getD 0 + n) % u32Mod)) (some v) =
        some (L.foldl (fun a n => (a + n) % u32Mod) v) := by
  intro L
  induction L with
  | nil => intro v; rfl
  | cons n ns ih => intro v; simp only [List.foldl_cons, Option.getD_some, ih]

theorem rollsFold_lookupA (rolls : List DiceRoll) (k : Dice) :
    lookupA k (rollsFold rolls) =
      (if k ∈ rolls.map (fun r => r.die) then some (kindSum rolls k) else none) := by
  rw [rollsFold, lookupA_foldl_insertAdd]
  have hnone : lookupA k ([] : List (Dice × Nat)) = none := rfl
  rw [hnone]
  cases hL : (rolls.filter (fun r => r.die == k)) with
  | nil =>
    have hk : ¬k ∈ rolls.map (fun r => r.die) := by
      intro hk
      obtain ⟨r, hr, hdie⟩ := List.mem_map.mp hk
      have : r ∈ rolls.filter (fun r => r.die == k) :=
        List.mem_filter.mpr ⟨hr, by simp [hdie]⟩
      rw [hL] at this
      cases this
    rw [if_neg hk]
    rfl
  | cons r0 rs =>
    have hr0 : r0 ∈ rolls.filter (fun r => r.die == k) := by rw [hL]; exact List.mem_cons_self r0 rs
    have hk : k ∈ rolls.map (fun r => r.die) := by
      obtain ⟨hmem, hp⟩ := List.mem_filter.mp hr0
      refine List.mem_map.mpr ⟨r0, hmem, ?_⟩
      simpa using hp
    rw [if_pos hk, kindSum, hL]
    simp only [List.map_cons, List.foldl_cons, Option.getD_none]
    rw [optFold_some]

theorem assoc_filter_of_nodup :
    ∀ (m : List (Dice × Nat)), ((m.map Prod.fst).Nodup) → ∀ k,
      m.filter (fun p => p.1 == k) =
        (match lookupA k m with
         | none => []
         | some v => [(k, v)]) := by
  intro m
  induction m with
  | nil => intro h k; rfl
  | cons p rest ih =>
    intro h k
    obtain ⟨k1, v⟩ := p
    simp only [List.map_cons, List.nodup_cons] at h
    obtain ⟨hk1, hrest⟩ := h
    simp only [List.filter_cons, lookupA]
    by_cases hkk : k1 = k
    · subst hkk
      simp only [if_pos rfl]
      have hfil : rest.filter (fun p => p.1 == k1) = [] := by
        rw [List.filter_eq_nil_iff]
        intro q hq
        simp only [beq_iff_eq]
        intro hq1
        exact hk1 (by rw [← hq1]; exact List.mem_map_of_mem Prod.fst hq)
      simp [hfil]
    · have hb : ((k1, v).1 == k) = false := by simp [hkk]
      rw [hb]
      simp only [if_neg hkk]
      exact ih hrest k

/-! Group-level and driver-level helper lemmas. -/

theorem parse_group_of_many1 {e : List (Dice × Nat) → List (Dice × Nat)}
    {i rem : List Char} {rolls : List DiceRoll}
    (hm : many1_dice i = .ok rem rolls) :
    parse_group e i = .ok rem ((e (rollsFold rolls)).map rollOf) := by
  simp [parse_group, hm]

theorem parse_group_of_err {e : List (Dice × Nat) → List (Dice × Nat)}
    {i : List Char} {e0 : NomErr} (hm : many1_dice i = .err e0) :
    parse_group e i = .err e0 := by
  simp [parse_group, hm]

theorem parse_group_of_panic {e : List (Dice × Nat) → List (Dice × Nat)}
    {i : List Char} (hm : many1_dice i = .panicked) :
    parse_group e i = .panicked := by
  simp [parse_group, hm]

theorem many1_go_ne_nil :
    ∀ fuel acc i rem out, acc ≠ [] → many1_go fuel acc i = .ok rem out → out ≠ [] := by
  intro fuel
  induction fuel with
  | zero => intro acc i rem out ha h; simp [many1_go] at h
  | succ f ih =>
    intro acc i rem out ha h
    simp only [many1_go] at h
    cases hp : parse_dice i with
    | ok rem1 r =>
      rw [hp] at h
      simp only at h
      split at h
      · exact ih (acc ++ [r]) rem1 rem out (by simp) h
      · cases h
    | err e =>
      rw [hp] at h
      cases e with
      | error r0 =>
        injection h with h1 h2
        subst h2
        exact ha
      | failure r0 => cases h
      | incomplete => cases h
    | panicked => rw [hp] at h; cases h

theorem many1_dice_ne_nil {i rem : List Char} {out : List DiceRoll}
    (h : many1_dice i = .ok rem out) : out ≠ [] := by
  simp only [many1_dice] at h
  cases hp : parse_dice i with
  | ok rem1 r =>
    rw [hp] at h
    exact many1_go_ne_nil _ [r] rem1 rem out (by simp) h
  | err e => rw [hp] at h; cases e <;> cases h
  | panicked => rw [hp] at h; cases h

theorem parse_group_props {e : List (Dice × Nat) → List (Dice × Nat)}
    (he : ∀ l, (e l).Perm l) {i rem : List Char} {g : List DiceRoll}
    (h : parse_group e i = .ok rem g) :
    g ≠ [] ∧ (g.map (fun r => r.die)).Nodup := by
  simp only [parse_group] at h
  cases hm : many1_dice i with
  | ok rem1 rolls =>
    rw [hm] at h
    injection h with h1 h2
    subst h1
    constructor
    · have hA : rollsFold rolls ≠ [] := rollsFold_ne_nil (many1_dice_ne_nil hm)
      intro hnil
      rw [← h2] at hnil
      rw [List.map_eq_nil_iff] at hnil
      have hperm : (e (rollsFold rolls)).Perm (rollsFold rolls) := he _
      rw [hnil] at hperm
      exact hA (hperm.symm.eq_nil)
    · have hmm : g.map (fun r => r.die) = (e (rollsFold rolls)).map Prod.fst := by
        rw [← h2, List.map_map]
        rfl
      rw [hmm]
      exact (((he (rollsFold rolls)).map Prod.fst).nodup_iff).mpr
        (rollsFold_keys_nodup rolls)
  | err e1 => rw [hm] at h; cases h
  | panicked => rw [hm] at h; cases h

theorem parse_group_counts {e : List (Dice × Nat) → List (Dice × Nat)}
    (he : ∀ l, (e l).Perm l) (rolls : List DiceRoll) :
    ((e (rollsFold rolls)).map rollOf).Perm ((rollsFold rolls).map rollOf) ∧
    ∀ k, (((e (rollsFold rolls)).map rollOf).filter (fun r => r.die == k)).map
        (fun r => r.number_of_dice_to_roll) =
      (if k ∈ rolls.map (fun r => r.die) then [kindSum rolls k] else []) := by
  refine ⟨(he _).map rollOf, ?_⟩
  intro k
  have hperm := ((he (rollsFold rolls)).map rollOf).filter (fun r => r.die == k)
  have hAfil : ((rollsFold rolls).map rollOf).filter (fun r => r.die == k)
      = ((rollsFold rolls).filter (fun p => p.1 == k)).map rollOf := by
    rw [List.filter_map]
    rfl
  rw [hAfil, assoc_filter_of_nodup _ (rollsFold_keys_nodup rolls) k,
    rollsFold_lookupA] at hperm
  by_cases hk : k ∈ rolls.map (fun r => r.die)
  · rw [if_pos hk] at hperm
    rw [if_pos hk]
    have heq : (((e (rollsFold rolls)).map rollOf).filter (fun r => r.die == k))
        = [rollOf (k, kindSum rolls k)] :=
      List.perm_singleton.mp (by simpa using hperm)
    rw [heq]
    rfl
  · rw [if_neg hk] at hperm
    rw [if_neg hk]
    have heq : (((e (rollsFold rolls)).map rollOf).filter (fun r => r.die == k)) = [] :=
      List.Perm.eq_nil (by simpa using hperm)
    rw [heq]
    rfl

theorem parse_groups_err {emit : Nat → List (Dice × Nat) → List (Dice × Nat)}
    {i : List Char} {e0 : NomErr} (h : many1_dice i = .err e0) :
    parse_groups emit i = .err e0 := by
  simp only [parse_groups, parse_groups_fuel]
  rw [parse_group_of_err h]

theorem parse_groups_panic {emit : Nat → List (Dice × Nat) → List (Dice × Nat)}
    {i : List Char} (h : many1_dice i = .panicked) :
    parse_groups emit i = .panicked := by
  simp only [parse_groups, parse_groups_fuel]
  rw [parse_group_of_panic h]

theorem parse_groups_single {emit : Nat → List (Dice × Nat) → List (Dice × Nat)}
    {i : List Char} {rolls : List DiceRoll}
    (hm : many1_dice i = .ok [] rolls) :
    parse_groups emit i = .ok [] [(emit 0 (rollsFold rolls)).map rollOf] := by
  simp only [parse_groups, parse_groups_fuel]
  rw [parse_group_of_many1 hm]

theorem parse_groups_cons {emit : Nat → List (Dice × Nat) → List (Dice × Nat)}
    {i rest : List Char} {g : List DiceRoll}
    (hg : parse_group (emit 0) i = .ok (',' :: rest) g) :
    parse_groups emit i =
      (match parse_groups (fun n => emit (1 + n)) rest with
       | .ok rem2 gs => .ok rem2 (g :: gs)
       | .err (.error _) => .ok (',' :: rest) [g]
       | .err e => .err e
       | .panicked => .panicked) := by
  have hlen : rest.length + 1 ≤ i.length := by
    have := parse_group_rem_le hg
    simpa using this
  simp only [parse_groups, parse_groups_fuel]
  rw [hg]
  simp only [if_pos]
  rw [parse_groups_fuel_shift i.length emit 1 rest,
    parse_groups_fuel_congr i.length (rest.length + 1) (fun n => emit (1 + n)) 0 rest
      (by omega) (by omega)]
  simp only [parse_groups_fuel]

theorem parse_line_eq (emit : Nat → List (Dice × Nat) → List (Dice × Nat)) (s : String) :
    parse_line emit s =
      (match parse_groups emit (stripSpaces s.toList) with
       | .ok remaining dice_rolls =>
         if (rustTrim remaining).isEmpty then .ok dice_rolls
         else .err (.parseError
           ("Expected remaining input to be empty, found: " ++ String.mk remaining))
       | .err (.error e) => .err (.parseError (nomErrMsg (.error e)))
       | .err (.failure e) => .err (.parseError (nomErrMsg (.failure e)))
       | .err .incomplete => .err .unknown
       | .panicked => .panicked) := rfl

theorem parse_line_of_groups_ok {emit : Nat → List (Dice × Nat) → List (Dice × Nat)}
    {s : String} {rem : List Char} {gs : List (List DiceRoll)}
    (h : parse_groups emit (stripSpaces s.toList) = .ok rem gs)
    (hrem : (rustTrim rem).isEmpty = true) :
    parse_line emit s = .ok gs := by
  rw [parse_line_eq, h]
  simp [hrem]

theorem parse_line_of_groups_rem {emit : Nat → List (Dice × Nat) → List (Dice × Nat)}
    {s : String} {rem : List Char} {gs : List (List DiceRoll)}
    (h : parse_groups emit (stripSpaces s.toList) = .ok rem gs)
    (hrem : ¬(rustTrim rem).isEmpty = true) :
    parse_line emit s = .err (.parseError
      ("Expected remaining input to be empty, found: " ++ String.mk rem)) := by
  rw [parse_line_eq, h]
  simp [hrem]

theorem parse_line_of_groups_err {emit : Nat → List (Dice × Nat) → List (Dice × Nat)}
    {s : String} {r : List Char}
    (h : parse_groups emit (stripSpaces s.toList) = .err (.error r)) :
    parse_line emit s = .err (.parseError (nomErrMsg (.error r))) := by
  rw [parse_line_eq, h]

theorem parse_line_of_groups_panic {emit : Nat → List (Dice × Nat) → List (Dice × Nat)}
    {s : String} (h : parse_groups emit (stripSpaces s.toList) = .panicked) :
    parse_line emit s = .panicked := by
  rw [parse_line_eq, h]

/-! Determinism up to the indeterminate per-group emission order. -/

theorem parse_groups_fuel_rel :
    ∀ (f : Nat) (e1 e2 : Nat → List (Dice × Nat) → List (Dice × Nat)) (idx : Nat)
      (i : List Char), ValidEmit e1 → ValidEmit e2 →
      GroupsRel (parse_groups_fuel e1 f idx i) (parse_groups_fuel e2 f idx i) := by
  intro f
  induction f with
  | zero => intro e1 e2 idx i h1 h2; simp [parse_groups_fuel, GroupsRel]
  | succ f ih =>
    intro e1 e2 idx i h1 h2
    simp only [parse_groups_fuel]
    cases hm : many1_dice i with
    | ok rem rolls =>
      simp only [parse_group_of_many1 hm]
      have hgperm : ((e1 idx (rollsFold rolls)).map rollOf).Perm
          ((e2 idx (rollsFold rolls)).map rollOf) :=
        ((h1 idx _).trans (h2 idx _).symm).map rollOf
      cases rem with
      | nil => exact ⟨rfl, List.Forall₂.cons hgperm List.Forall₂.nil⟩
      | cons c rest =>
        by_cases hc : c = ','
        · subst hc
          simp only [if_pos]
          have hrec := ih e1 e2 (idx + 1) rest h1 h2
          cases hr1 : parse_groups_fuel e1 f (idx + 1) rest with
          | ok rem2 gs1 =>
            cases hr2 : parse_groups_fuel e2 f (idx + 1) rest with
            | ok rem2b gs2 =>
              rw [hr1, hr2] at hrec
              obtain ⟨hrr, hgs⟩ := hrec
              subst hrr
              exact ⟨rfl, List.Forall₂.cons hgperm hgs⟩
            | err eb => rw [hr1, hr2] at hrec; exact hrec.elim
            | panicked => rw [hr1, hr2] at hrec; exact hrec.elim
          | err ea =>
            cases hr2 : parse_groups_fuel e2 f (idx + 1) rest with
            | ok rem2b gs2 => rw [hr1, hr2] at hrec; exact hrec.elim
            | err eb =>
              rw [hr1, hr2] at hrec
              have heq : ea = eb := hrec
              subst heq
              cases ea with
              | error r => exact ⟨rfl, List.Forall₂.cons hgperm List.Forall₂.nil⟩
              | failure r => exact rfl
              | incomplete => exact rfl
            | panicked => rw [hr1, hr2] at hrec; exact hrec.elim
          | panicked =>
            cases hr2 : parse_groups_fuel e2 f (idx + 1) rest with
            | ok rem2b gs2 => rw [hr1, hr2] at hrec; exact hrec.elim
            | err eb => rw [hr1, hr2] at hrec; exact hrec.elim
            | panicked => exact trivial
        · simp only [if_neg hc]
          exact ⟨rfl, List.Forall₂.cons hgperm List.Forall₂.nil⟩
    | err e0 =>
      simp only [parse_group_of_err hm]
      exact rfl
    | panicked =>
      simp only [parse_group_of_panic hm]
      exact trivial

theorem parse_line_rel (e1 e2 : Nat → List (Dice × Nat) → List (Dice × Nat))
    (h1 : ValidEmit e1) (h2 : ValidEmit e2) (s : String) :
    LineRel (parse_line e1 s) (parse_line e2 s) := by
  have hrel := parse_groups_fuel_rel ((stripSpaces s.toList).length + 1) e1 e2 0
    (stripSpaces s.toList) h1 h2
  rw [parse_line_eq e1 s, parse_line_eq e2 s]
  cases hg1 : parse_groups e1 (stripSpaces s.toList) with
  | ok rem1 gs1 =>
    cases hg2 : parse_groups e2 (stripSpaces s.toList) with
    | ok rem2 gs2 =>
      rw [parse_groups] at hg1 hg2
      rw [hg1, hg2] at hrel
      obtain ⟨hr, hgs⟩ := hrel
      subst hr
      by_cases ht : (rustTrim rem1).isEmpty = true
      · simp only [if_pos ht]
        exact hgs
      · simp only [if_neg ht]
        exact rfl
    | err eb =>
      rw [parse_groups] at hg1 hg2
      rw [hg1, hg2] at hrel
      exact hrel.elim
    | panicked =>
      rw [parse_groups] at hg1 hg2
      rw [hg1, hg2] at hrel
      exact hrel.elim
  | err ea =>
    cases hg2 : parse_groups e2 (stripSpaces s.toList) with
    | ok rem2 gs2 =>
      rw [parse_groups] at hg1 hg2
      rw [hg1, hg2] at hrel
      exact hrel.elim
    | err eb =>
      rw [parse_groups] at hg1 hg2
      rw [hg1, hg2] at hrel
      have heq : ea = eb := hrel
      subst heq
      cases ea with
      | error r => exact rfl
      | failure r => exact rfl
      | incomplete => exact rfl
    | panicked =>
      rw [parse_groups] at hg1 hg2
      rw [hg1, hg2] at hrel
      exact hrel.elim
  | panicked =>
    cases hg2 : parse_groups e2 (stripSpaces s.toList) with
    | ok rem2 gs2 =>
      rw [parse_groups] at hg1 hg2
      rw [hg1, hg2] at hrel
      exact hrel.elim
    | err eb =>
      rw [parse_groups] at hg1 hg2
      rw [hg1, hg2] at hrel
      exact hrel.elim
    | panicked => exact trivial

/-! The claims. -/

/-- C1: within one comma-free segment the Group Aggregator merges repeated
dice of the same kind into a single per-kind summed count: parse_line "ggbpp"
yields exactly one group whose multiset of pairs is Ability 2, Boost 1,
Difficulty 2; parse_line "6ryyy" yields one group with Challenge 6,
Proficiency 3; and in general every successful parse_group emits, for each
kind k appearing among the parsed rolls, exactly one entry whose count is the
running (wrapped) sum of the counts matched for k. -/
theorem claim1_group_aggregation :
    (∀ emit, ValidEmit emit → ∃ g, parse_line emit "ggbpp" = .ok [g] ∧
      g.Perm [⟨2, .Ability⟩, ⟨1, .Boost⟩, ⟨2, .Difficulty⟩]) ∧
    (∀ emit, ValidEmit emit → ∃ g, parse_line emit "6ryyy" = .ok [g] ∧
      g.Perm [⟨6, .Challenge⟩, ⟨3, .Proficiency⟩]) ∧
    (∀ e, (∀ l, (e l).Perm l) → ∀ i rem rolls, many1_dice i = .ok rem rolls →
      ∃ gs, parse_group e i = .ok rem gs ∧
        ∀ k, (gs.filter (fun r => r.die == k)).map (fun r => r.number_of_dice_to_roll) =
          (if k ∈ rolls.map (fun r => r.die) then [kindSum rolls k] else [])) := by
  refine ⟨?_, ?_, ?_⟩
  · intro emit he
    have hm : many1_dice (stripSpaces (String.toList "ggbpp")) =
        .ok [] [⟨1, .Ability⟩, ⟨1, .Ability⟩, ⟨1, .Boost⟩,
          ⟨1, .Difficulty⟩, ⟨1, .Difficulty⟩] := by decide
    refine ⟨(emit 0 (rollsFold [⟨1, .Ability⟩, ⟨1, .Ability⟩, ⟨1, .Boost⟩,
        ⟨1, .Difficulty⟩, ⟨1, .Difficulty⟩])).map rollOf,
      parse_line_of_groups_ok (parse_groups_single hm) (by decide), ?_⟩
    have hp := (he 0 (rollsFold [⟨1, .Ability⟩, ⟨1, .Ability⟩, ⟨1, .Boost⟩,
        ⟨1, .Difficulty⟩, ⟨1, .Difficulty⟩])).map rollOf
    have hc : (rollsFold [⟨1, .Ability⟩, ⟨1, .Ability⟩, ⟨1, .Boost⟩,
        ⟨1, .Difficulty⟩, ⟨1, .Difficulty⟩]).map rollOf =
        [⟨2, .Ability⟩, ⟨1, .Boost⟩, ⟨2, .Difficulty⟩] := by decide
    rw [hc] at hp
    exact hp
  · intro emit he
    have hm : many1_dice (stripSpaces (String.toList "6ryyy")) =
        .ok [] [⟨6, .Challenge⟩, ⟨1, .Proficiency⟩, ⟨1, .Proficiency⟩,
          ⟨1, .Proficiency⟩] := by decide
    refine ⟨(emit 0 (rollsFold [⟨6, .Challenge⟩, ⟨1, .Proficiency⟩, ⟨1, .Proficiency⟩,
        ⟨1, .Proficiency⟩])).map rollOf,
      parse_line_of_groups_ok (parse_groups_single hm) (by decide), ?_⟩
    have hp := (he 0 (rollsFold [⟨6, .Challenge⟩, ⟨1, .Proficiency⟩, ⟨1, .Proficiency⟩,
        ⟨1, .Proficiency⟩])).map rollOf
    have hc : (rollsFold [⟨6, .Challenge⟩, ⟨1, .Proficiency⟩, ⟨1, .Proficiency⟩,
        ⟨1, .Proficiency⟩]).map rollOf = [⟨6, .Challenge⟩, ⟨3, .Proficiency⟩] := by decide
    rw [hc] at hp
    exact hp
  · intro e he i rem rolls hm
    exact ⟨(e (rollsFold rolls)).map rollOf, parse_group_of_many1 hm,
      (parse_group_counts he rolls).2⟩

/-- C1 witness: the in-order oracle is valid and instantiates the claim. -/
theorem claim1_group_aggregation_witness :
    ∃ g, parse_line emitId "ggbpp" = .ok [g] ∧
      g.Perm [⟨2, .Ability⟩, ⟨1, .Boost⟩, ⟨2, .Difficulty⟩] :=
  claim1_group_aggregation.1 emitId (fun _ l => List.Perm.refl l)

/-- C2: every alias of the section 4.1 table, in every casing, resolves to
exactly the mapped kind with empty remainder; and the resolver coincides with
the flat ordered rule list of the spec, evaluated top to bottom with the
first case-insensitive literal prefix match winning. -/
theorem claim2_alias_resolution :
    (∀ (k : Dice) (als : List (List Char)) (a b : List Char),
      (k, als) ∈ aliasTable → a ∈ als → b.map lowerNat = a.map lowerNat →
      parse_dice_as_value b = .ok [] k) ∧
    (∀ i, parse_dice_as_value i =
      (match specFirstMatch specAliasRules i with
       | some (k, rem) => .ok rem k
       | none => .err (.error i))) := by
  constructor
  · intro k als a b htab ha hb
    fin_cases htab <;> fin_cases ha <;> exact casing_resolve (by decide) hb
  · intro i
    rw [parse_dice_as_value, findAlias_eq_specFirstMatch, flattenTable_aliasTable]

/-- C2 witness: the casing AbIl of the alias abil resolves to Ability,
consuming the whole input. -/
theorem claim2_alias_resolution_witness :
    parse_dice_as_value "AbIl".toList = .ok [] .Ability :=
  claim2_alias_resolution.1 .Ability
    ["green".toList, "g".toList, "ability".toList, "abil".toList]
    "abil".toList "AbIl".toList (by decide) (by decide) (by decide)

/-- C3: a successful parse returns one group per comma-separated segment in
left-to-right order: parse_line "2rkyyg, ppb" yields exactly the two groups
Challenge 2, Setback 1, Proficiency 2, Ability 1 and then Difficulty 2,
Boost 1; and in general the group list of segment-comma-rest is the group of
the segment consed onto the group list of the rest. -/
theorem claim3_group_order :
    (∀ emit, ValidEmit emit → ∃ g1 g2,
      parse_line emit "2rkyyg, ppb" = .ok [g1, g2] ∧
      g1.Perm [⟨2, .Challenge⟩, ⟨1, .Setback⟩, ⟨2, .Proficiency⟩, ⟨1, .Ability⟩] ∧
      g2.Perm [⟨2, .Difficulty⟩, ⟨1, .Boost⟩]) ∧
    (∀ emit i rest g rem2 gs,
      parse_group (emit 0) i = .ok (',' :: rest) g →
      parse_groups (fun n => emit (1 + n)) rest = .ok rem2 gs →
      parse_groups emit i = .ok rem2 (g :: gs)) := by
  constructor
  · intro emit he
    have h1 : many1_dice (stripSpaces (String.toList "2rkyyg, ppb")) =
        .ok (',' :: "ppb".toList) [⟨2, .Challenge⟩, ⟨1, .Setback⟩, ⟨1, .Proficiency⟩,
          ⟨1, .Proficiency⟩, ⟨1, .Ability⟩] := by decide
    have h2 : many1_dice "ppb".toList =
        .ok [] [⟨1, .Difficulty⟩, ⟨1, .Difficulty⟩, ⟨1, .Boost⟩] := by decide
    have hg1 := parse_group_of_many1 (e := emit 0) h1
    have hg2 := @parse_groups_single (fun n => emit (1 + n)) _ _ h2
    have hgs := parse_groups_cons hg1
    rw [hg2] at hgs
    refine ⟨(emit 0 (rollsFold [⟨2, .Challenge⟩, ⟨1, .Setback⟩, ⟨1, .Proficiency⟩,
        ⟨1, .Proficiency⟩, ⟨1, .Ability⟩])).map rollOf,
      (emit 1 (rollsFold [⟨1, .Difficulty⟩, ⟨1, .Difficulty⟩, ⟨1, .Boost⟩])).map rollOf,
      parse_line_of_groups_ok hgs (by decide), ?_, ?_⟩
    · have hp := (he 0 (rollsFold [⟨2, .Challenge⟩, ⟨1, .Setback⟩, ⟨1, .Proficiency⟩,
          ⟨1, .Proficiency⟩, ⟨1, .Ability⟩])).map rollOf
      have hc : (rollsFold [⟨2, .Challenge⟩, ⟨1, .Setback⟩, ⟨1, .Proficiency⟩,
          ⟨1, .Proficiency⟩, ⟨1, .Ability⟩]).map rollOf =
          [⟨2, .Challenge⟩, ⟨1, .Setback⟩, ⟨2, .Proficiency⟩, ⟨1, .Ability⟩] := by decide
      rw [hc] at hp
      exact hp
    · have hp := (he 1 (rollsFold [⟨1, .Difficulty⟩, ⟨1, .Difficulty⟩,
          ⟨1, .Boost⟩])).map rollOf
      have hc : (rollsFold [⟨1, .Difficulty⟩, ⟨1, .Difficulty⟩, ⟨1, .Boost⟩]).map rollOf =
          [⟨2, .Difficulty⟩, ⟨1, .Boost⟩] := by decide
      rw [hc] at hp
      exact hp
  · intro emit i rest g rem2 gs hg hrest
    have hgs := parse_groups_cons hg
    rw [hrest] at hgs
    exact hgs

/-- C3 witness: the in-order oracle instantiates the two-group example. -/
theorem claim3_group_order_witness :
    ∃ g1 g2, parse_line emitId "2rkyyg, ppb" = .ok [g1, g2] ∧
      g1.Perm [⟨2, .Challenge⟩, ⟨1, .Setback⟩, ⟨2, .Proficiency⟩, ⟨1, .Ability⟩] ∧
      g2.Perm [⟨2, .Difficulty⟩, ⟨1, .Boost⟩] :=
  claim3_group_order.1 emitId (fun _ l => List.Perm.refl l)

/-- C4: the claim says parse_line "d" succeeds as one group Difficulty 1, and
the unit test of the source asserts the same of parse_group; but the code has
no alias for the bare letter d (the Difficulty alternatives are difficulty,
purple, p, diff, dif, and a tag longer than the remaining input is a nom
error), so parse_line "d" in fact fails with a ParseError for every emission
oracle.  This theorem evaluates the code at the failing input. -/
theorem claim4_bare_d_rejected :
    (∀ emit, parse_line emit "d" =
      .err (.parseError (nomErrMsg (.error "d".toList)))) ∧
    parse_dice_as_value "d".toList = .err (.error "d".toList) := by
  constructor
  · intro emit
    have hm : many1_dice (stripSpaces (String.toList "d")) =
        .err (.error "d".toList) := by decide
    exact parse_line_of_groups_err (parse_groups_err hm)
  · decide

/-- C5: the claim says a digit run that does not fit in u32 is surfaced as a
ParseError result; but parse_dice unwraps the str::parse result, so on
"99999999999g" (overflowing run followed by a valid alias) the code panics
instead of returning an error, for every emission oracle.  When no alias
follows the overflowing run, the alias failure precedes the unwrap and a
ParseError is returned, as on "99999999999". -/
theorem claim5_overflow_panics :
    (∀ emit, parse_line emit "99999999999g" = .panicked) ∧
    (∀ emit, parse_line emit "99999999999" =
      .err (.parseError (nomErrMsg (.error "99999999999".toList)))) := by
  constructor
  · intro emit
    have hm : many1_dice (stripSpaces (String.toList "99999999999g")) = .panicked := by
      decide
    exact parse_line_of_groups_panic (parse_groups_panic hm)
  · intro emit
    have hm : many1_dice (stripSpaces (String.toList "99999999999")) =
        .err (.error "99999999999".toList) := by decide
    exact parse_line_of_groups_err (parse_groups_err hm)

/-- C6: an input whose first token position carries a character matching no
alias and no digit makes the whole parse fail with a ParseError: concretely
parse_line "*1" and parse_line "6 + 2" fail, and in general whenever the
single-roll parser fails at the start of the stripped input (including a
leading digit run followed by no valid alias), parse_line returns a
ParseError and no groups. -/
theorem claim6_invalid_char_fails :
    (∀ emit, parse_line emit "*1" =
      .err (.parseError (nomErrMsg (.error "*1".toList)))) ∧
    (∀ emit, parse_line emit "6 + 2" =
      .err (.parseError (nomErrMsg (.error "6+2".toList)))) ∧
    (∀ emit s r, parse_dice (stripSpaces s.toList) = .err (.error r) →
      parse_line emit s =
        .err (.parseError (nomErrMsg (.error (stripSpaces s.toList))))) := by
  refine ⟨?_, ?_, ?_⟩
  · intro emit
    have hm : many1_dice (stripSpaces (String.toList "*1")) =
        .err (.error "*1".toList) := by decide
    exact parse_line_of_groups_err (parse_groups_err hm)
  · intro emit
    have hm : many1_dice (stripSpaces (String.toList "6 + 2")) =
        .err (.error "6+2".toList) := by decide
    exact parse_line_of_groups_err (parse_groups_err hm)
  · intro emit s r h
    have hm : many1_dice (stripSpaces s.toList) =
        .err (.error (stripSpaces s.toList)) := by
      simp only [many1_dice, h]
    exact parse_line_of_groups_err (parse_groups_err hm)

/-- C6 witness: the general clause applied to the concrete input "*1". -/
theorem claim6_invalid_char_fails_witness :
    parse_line emitId "*1" =
      .err (.parseError (nomErrMsg (.error (stripSpaces (String.toList "*1"))))) :=
  claim6_invalid_char_fails.2.2 emitId "*1" "*1".toList (by decide)

/-- C7: when the group-list parse succeeds structurally but leaves unconsumed
non-whitespace input, parse_line fails with a ParseError instead of returning
the truncated group list: concretely on "gg," (trailing comma), and in
general whenever the remainder contains any non-whitespace character. -/
theorem claim7_trailing_input_fails :
    (∀ emit, parse_line emit "gg," =
      .err (.parseError "Expected remaining input to be empty, found: ,")) ∧
    (∀ emit s rem gs c, parse_groups emit (stripSpaces s.toList) = .ok rem gs →
      c ∈ rem → isRustWhitespace c = false →
      parse_line emit s = .err (.parseError
        ("Expected remaining input to be empty, found: " ++ String.mk rem))) := by
  constructor
  · intro emit
    have hm : many1_dice (stripSpaces (String.toList "gg,")) =
        .ok [','] [⟨1, .Ability⟩, ⟨1, .Ability⟩] := by decide
    have hg1 := parse_group_of_many1 (e := emit 0) hm
    have hnil : parse_groups (fun n => emit (1 + n)) ([] : List Char) =
        .err (.error ([] : List Char)) := parse_groups_err (by decide)
    have hgs := parse_groups_cons hg1
    rw [hnil] at hgs
    have hline := parse_line_of_groups_rem hgs (by decide)
    have hmsg : ("Expected remaining input to be empty, found: " ++ String.mk [',']) =
        "Expected remaining input to be empty, found: ," := by decide
    rw [hmsg] at hline
    exact hline
  · intro emit s rem gs c hg hc hw
    have hne : ¬(rustTrim rem).isEmpty = true := by
      intro hemp
      rw [List.isEmpty_iff] at hemp
      have hall := rustTrim_nil hemp c hc
      rw [hw] at hall
      cases hall
    exact parse_line_of_groups_rem hg hne

/-- C7 witness: the general clause applied to "gg," with remainder list
holding the comma. -/
theorem claim7_trailing_input_fails_witness :
    parse_line emitId "gg," = .err (.parseError
      ("Expected remaining input to be empty, found: " ++ String.mk [','])) :=
  claim7_trailing_input_fails.2 emitId "gg," [','] [[⟨2, .Ability⟩]] ','
    (by decide) (by decide) (by decide)

/-- C8: parse_line is invariant under removal of ASCII space characters: for
every input and every emission oracle, the result on s equals the result on s
with every space (and only spaces) removed, because the driver itself strips
spaces first and stripping is idempotent. -/
theorem claim8_space_invariance
    (emit : Nat → List (Dice × Nat) → List (Dice × Nat)) (s : String) :
    parse_line emit s = parse_line emit (String.mk (stripSpaces s.toList)) := by
  rw [parse_line_eq, parse_line_eq]
  have h : stripSpaces ((String.mk (stripSpaces s.toList)).toList) =
      stripSpaces s.toList := by
    show stripSpaces (stripSpaces s.toList) = stripSpaces s.toList
    exact stripSpaces_idem _
  rw [h]

/-- C9 counterexample: the claim asserts that two invocations on the same
string return the identical sequence of pairs inside each group, but the
group entries are emitted by HashMap::into_iter whose per-instance order is
indeterminate: the in-order and the reversed emission orders are both valid
behaviours of the map, and on "gb" they give different group sequences. -/
theorem claim9_counterexample :
    ValidEmit emitId ∧ ValidEmit emitRev ∧
      parse_line emitId "gb" ≠ parse_line emitRev "gb" := by
  refine ⟨fun _ l => List.Perm.refl l, fun _ l => List.reverse_perm l, ?_⟩
  decide

/-- C9 as amended: two invocations of parse_line on the same string agree up
to reordering inside each group: same success or failure, the same groups in
the same order with equal multisets of pairs, or the identical error. -/
theorem claim9_determinism_up_to_group_order
    (e1 e2 : Nat → List (Dice × Nat) → List (Dice × Nat))
    (h1 : ValidEmit e1) (h2 : ValidEmit e2) (s : String) :
    LineRel (parse_line e1 s) (parse_line e2 s) :=
  parse_line_rel e1 e2 h1 h2 s

/-- C9 witness: the amended claim at the two concrete valid oracles. -/
theorem claim9_determinism_witness :
    LineRel (parse_line emitId "gb") (parse_line emitRev "gb") :=
  claim9_determinism_up_to_group_order emitId emitRev
    (fun _ l => List.Perm.refl l) (fun _ l => List.reverse_perm l) "gb"

theorem parse_groups_fuel_props {emit : Nat → List (Dice × Nat) → List (Dice × Nat)}
    (he : ValidEmit emit) :
    ∀ f idx i rem gs, parse_groups_fuel emit f idx i = .ok rem gs →
      ∀ g ∈ gs, g ≠ [] ∧ (g.map (fun r => r.die)).Nodup := by
  intro f
  induction f with
  | zero => intro idx i rem gs h; simp [parse_groups_fuel] at h
  | succ f ih =>
    intro idx i rem gs h
    simp only [parse_groups_fuel] at h
    cases hg : parse_group (emit idx) i with
    | ok rem1 g1 =>
      rw [hg] at h
      have hp := parse_group_props (fun l => he idx l) hg
      cases rem1 with
      | nil =>
        simp only at h
        injection h with ha hb
        subst hb
        intro g hgmem
        simp only [List.mem_singleton] at hgmem
        subst hgmem
        exact hp
      | cons c rest =>
        simp only at h
        by_cases hc : c = ','
        · subst hc
          rw [if_pos rfl] at h
          cases hr : parse_groups_fuel emit f (idx + 1) rest with
          | ok rem2 gs2 =>
            rw [hr] at h
            injection h with ha hb
            subst hb
            intro g hgmem
            rcases List.mem_cons.mp hgmem with rfl | hmem
            · exact hp
            · exact ih (idx + 1) rest rem2 gs2 hr g hmem
          | err e0 =>
            rw [hr] at h
            cases e0 with
            | error r =>
              injection h with ha hb
              subst hb
              intro g hgmem
              simp only [List.mem_singleton] at hgmem
              subst hgmem
              exact hp
            | failure r => cases h
            | incomplete => cases h
          | panicked => rw [hr] at h; cases h
        · rw [if_neg hc] at h
          injection h with ha hb
          subst hb
          intro g hgmem
          simp only [List.mem_singleton] at hgmem
          subst hgmem
          exact hp
    | err e0 => rw [hg] at h; cases h
    | panicked => rw [hg] at h; cases h

/-- C10: invariants of every successful parse: each returned group is
nonempty, and inside one group every kind occurs at most once (the kinds of
the entries of a group are pairwise distinct). -/
theorem claim10_group_invariants {emit : Nat → List (Dice × Nat) → List (Dice × Nat)}
    (he : ValidEmit emit) {s : String} {gs : List (List DiceRoll)}
    (h : parse_line emit s = .ok gs) :
    ∀ g ∈ gs, g ≠ [] ∧ (g.map (fun r => r.die)).Nodup := by
  rw [parse_line_eq] at h
  cases hg : parse_groups emit (stripSpaces s.toList) with
  | ok rem gs1 =>
    rw [hg] at h
    simp only at h
    by_cases ht : (rustTrim rem).isEmpty = true
    · rw [if_pos ht] at h
      injection h with hb
      subst hb
      rw [parse_groups] at hg
      exact parse_groups_fuel_props he _ 0 _ rem gs1 hg
    · rw [if_neg ht] at h
      cases h
  | err e0 =>
    rw [hg] at h
    cases e0 <;> cases h
  | panicked =>
    rw [hg] at h
    cases h

/-- C10 witness: the invariants at a concrete successful parse. -/
theorem claim10_group_invariants_witness :
    [DiceRoll.mk 2 .Difficulty] ≠ [] ∧
      (([DiceRoll.mk 2 .Difficulty]).map (fun r => r.die)).Nodup :=
  @claim10_group_invariants emitId (fun _ l => List.Perm.refl l) "2p"
    [[DiceRoll.mk 2 .Difficulty]] (by decide) [DiceRoll.mk 2 .Difficulty] (by decide)
